import Mathlib

/-!
Verification of `src/js/profile-utils.js` (ProfileUtils module).

The module is shallowly embedded: each JS function is translated to a Lean
function over explicit data.  Browser effects are made explicit parameters:

* image probing (`firstReachableImage`): the browser's per-URL load/error
  outcome is an oracle `ok : String → Bool`; the sequential `tryNext` loop
  is split into the value it resolves (`probeResult`) and the list of URLs
  it assigns to `img.src` along the way (`probedUrls`);
* `fetch` (`fetchYAML`): the transport outcome is a `FetchOutcome` value and
  the `jsyaml.load` parser is a parameter `load : String → Except String JsValue`
  (`Except.error` models a thrown parse exception);
* JS string built-ins used by the module (`split`, `trim`, `toLowerCase`,
  `charAt(0).toUpperCase() + slice(1)`, `Array.join`) are re-implemented by
  structural recursion on the character list so that they compute;
* JS truthiness on strings is `(· ≠ "")`, on parsed YAML values `JsValue.truthy`.
-/

/-- The module-scoped constant `DEFAULT_IMG = '/staff/images/cta-default.jpg'`. -/
def DEFAULT_IMG : String := "/staff/images/cta-default.jpg"

/-- The value the `tryNext` loop of `firstReachableImage` resolves from probing:
walk the URLs in order; the first URL whose load succeeds (per the browser
oracle `ok`) is the result; `none` if every candidate errors. -/
def probeResult (ok : String → Bool) : List String → Option String
  | [] => none
  | url :: rest => if ok url then some url else probeResult ok rest

/-- The URLs the `tryNext` loop assigns to `img.src` (i.e. actually probes):
each failing URL is probed and the walk advances; a succeeding URL is probed
and the walk stops there. -/
def probedUrls (ok : String → Bool) : List String → List String
  | [] => []
  | url :: rest => if ok url then [url] else url :: probedUrls ok rest

/-- `firstReachableImage(urls)` from the source: resolves the first URL that
loads; when the index runs past the end (all candidates failed) it resolves
`urls[urls.length - 1] || DEFAULT_IMG`, i.e. the last element when that is a
truthy (non-empty) string, and `DEFAULT_IMG` when the list is empty or its
last element is the empty string. -/
def firstReachableImage (ok : String → Bool) (urls : List String) : String :=
  match probeResult ok urls with
  | some url => url
  | none =>
    match urls.getLast? with
    | some last => if last = "" then DEFAULT_IMG else last
    | none => DEFAULT_IMG

lemma probeResult_eq_find? (ok : String → Bool) (urls : List String) :
    probeResult ok urls = urls.find? ok := by
  induction urls with
  | nil => rfl
  | cons a l ih =>
    cases h : ok a with
    | true => simp [probeResult, h, List.find?_cons_of_pos _ h]
    | false =>
      have hneg : ¬ (ok a = true) := by simp [h]
      rw [List.find?_cons_of_neg _ hneg]
      simp [probeResult, h, ih]

lemma probeResult_mem (ok : String → Bool) (urls : List String) (u : String)
    (h : probeResult ok urls = some u) : u ∈ urls := by
  rw [probeResult_eq_find?] at h
  exact List.mem_of_find?_eq_some h

lemma probeResult_eq_none_of_all_fail (ok : String → Bool) (urls : List String)
    (h : ∀ u ∈ urls, ok u = false) : probeResult ok urls = none := by
  induction urls with
  | nil => rfl
  | cons a l ih =>
    have ha : ok a = false := h a (List.mem_cons_self a l)
    simp only [probeResult, ha, Bool.false_eq_true, if_false]
    exact ih fun u hu => h u (List.mem_cons_of_mem a hu)

/-- C2: when some candidate succeeds, `firstReachableImage` resolves exactly the
first succeeding candidate (`List.find?`), the probe walk stops there, and the
URLs actually probed are precisely the failing strict prefix followed by that
first success — candidates after it are never probed. -/
theorem firstReachableImage_first_success (ok : String → Bool) (urls : List String)
    (u : String) (h : urls.find? ok = some u) :
    firstReachableImage ok urls = u ∧
    probeResult ok urls = some u ∧
    probedUrls ok urls = urls.takeWhile (fun x => !ok x) ++ [u] := by
  induction urls with
  | nil => simp at h
  | cons a l ih =>
    cases hok : ok a with
    | true =>
      rw [List.find?_cons_of_pos _ hok] at h
      cases h
      have hp : probeResult ok (u :: l) = some u := by simp [probeResult, hok]
      refine ⟨by simp [firstReachableImage, hp], hp, ?_⟩
      simp [probedUrls, List.takeWhile_cons, hok]
    | false =>
      have hneg : ¬ (ok a = true) := by simp [hok]
      rw [List.find?_cons_of_neg _ hneg] at h
      obtain ⟨h1, h2, h3⟩ := ih h
      have hp : probeResult ok (a :: l) = some u := by simp [probeResult, hok, h2]
      refine ⟨by simp [firstReachableImage, hp], hp, ?_⟩
      simp [probedUrls, List.takeWhile_cons, hok, h3]

/-- C2 witness: on a five-element list whose third element succeeds, the result
is that third element and only the first three URLs are probed. -/
theorem firstReachableImage_first_success_witness :
    firstReachableImage (fun s => s == "c") ["a", "b", "c", "d", "e"] = "c" ∧
    probeResult (fun s => s == "c") ["a", "b", "c", "d", "e"] = some "c" ∧
    probedUrls (fun s => s == "c") ["a", "b", "c", "d", "e"] =
      (["a", "b", "c", "d", "e"].takeWhile (fun x => !(x == "c"))) ++ ["c"] := by
  exact firstReachableImage_first_success (fun s => s == "c") ["a", "b", "c", "d", "e"] "c" (by decide)

/-- C1 counterexample: on the one-element list `[""]` with every candidate
failing, the claim says the promise resolves with the last element `""`, but
the code resolves `urls[urls.length-1] || DEFAULT_IMG`, which is the default
path, not `""`. -/
theorem firstReachableImage_last_empty_string_cex :
    ([""] : List String).getLast? = some "" ∧
    firstReachableImage (fun _ => false) [""] = "/staff/images/cta-default.jpg" ∧
    "/staff/images/cta-default.jpg" ≠ "" := by
  refine ⟨rfl, by decide, by decide⟩

/-- C1 (amended): `firstReachableImage` is total (always resolves, never
rejects); when every candidate fails it resolves with the last element of the
list when that element is non-empty, and with the default path
`/staff/images/cta-default.jpg` when the list is empty or its last element is
the empty string. -/
theorem firstReachableImage_all_fail (ok : String → Bool) (urls : List String)
    (h : ∀ u ∈ urls, ok u = false) :
    (urls = [] → firstReachableImage ok urls = DEFAULT_IMG) ∧
    (∀ last, urls.getLast? = some last → last ≠ "" → firstReachableImage ok urls = last) ∧
    (urls.getLast? = some "" → firstReachableImage ok urls = DEFAULT_IMG) := by
  have hp := probeResult_eq_none_of_all_fail ok urls h
  refine ⟨?_, ?_, ?_⟩
  · rintro rfl
    rfl
  · intro last hlast hne
    simp [firstReachableImage, hp, hlast, hne]
  · intro hlast
    simp [firstReachableImage, hp, hlast]

/-- C1 witness: on `["a", "b"]` with every candidate failing, the result is the
last element `"b"`. -/
theorem firstReachableImage_all_fail_witness :
    firstReachableImage (fun _ => false) ["a", "b"] = "b" := by
  exact (firstReachableImage_all_fail (fun _ => false) ["a", "b"] (by decide)).2.1
    "b" (by decide) (by decide)

/-- C4 counterexample: on the non-empty list `[""]` with every candidate
failing, the resolved URL is not an element of the input list (it is the
default path), although the list is not empty. -/
theorem firstReachableImage_not_mem_cex :
    firstReachableImage (fun _ => false) [""] ∉ ([""] : List String) ∧
    ([""] : List String) ≠ [] := by
  refine ⟨by decide, by decide⟩

/-- C4 (amended): the resolved URL is an element of the input list, except
that it is the literal default path when no candidate succeeds and the list is
empty or ends in the empty string. -/
theorem firstReachableImage_mem_or_default (ok : String → Bool) (urls : List String) :
    firstReachableImage ok urls ∈ urls ∨
    (firstReachableImage ok urls = DEFAULT_IMG ∧ probeResult ok urls = none ∧
      (urls = [] ∨ urls.getLast? = some "")) := by
  cases hp : probeResult ok urls with
  | some u =>
    left
    have : firstReachableImage ok urls = u := by simp [firstReachableImage, hp]
    rw [this]
    exact probeResult_mem ok urls u hp
  | none =>
    cases hlast : urls.getLast? with
    | none =>
      right
      refine ⟨by simp [firstReachableImage, hp, hlast], rfl, Or.inl ?_⟩
      exact List.getLast?_eq_none_iff.mp hlast
    | some last =>
      by_cases hne : last = ""
      · subst hne
        right
        exact ⟨by simp [firstReachableImage, hp, hlast], rfl, Or.inr rfl⟩
      · left
        have : firstReachableImage ok urls = last := by
          simp [firstReachableImage, hp, hlast, hne]
        rw [this]
        exact List.mem_of_mem_getLast? (by simp [hlast])

/-- A roster person record; only the `photo` field is read by
`imageCandidates` (`person.photo`). `none` models an absent field and
`some ""` an empty string; both are falsy in JS. -/
structure Person where
  photo : Option String

/-- The fixed extension set `['.jpg', '.png', '.jpeg']`. -/
def exts : List String := [".jpg", ".png", ".jpeg"]

/-- The `candidates` array of `imageCandidates` as pushed, before the final
`Array.from(new Set(candidates.filter(Boolean)))` line: explicit photo when
`person && person.photo` is truthy, then the canonical roster folder per
extension, then the year folders when `imgYears && years.length > 0`, then
the default image. -/
def rawCandidates (slug : String) (person : Option Person) (years : List String)
    (imgRoster : String) (imgYears : Option String) (defaultImg : String) :
    List String :=
  (match person with
   | some p =>
     match p.photo with
     | some ph => if ph = "" then [] else [ph]
     | none => []
   | none => []) ++
  exts.map (fun ext => imgRoster ++ "/" ++ slug ++ ext) ++
  (match imgYears with
   | some iy =>
     if iy ≠ "" ∧ years.length > 0 then
       years.flatMap (fun year => exts.map (fun ext => iy ++ "/" ++ year ++ "/" ++ slug ++ ext))
     else []
   | none => []) ++
  [defaultImg]

/-- `Array.from(new Set(l))`: JS `Set` iterates in insertion order, so the
conversion keeps the first occurrence of each element; `seen` is the set
contents accumulated so far. -/
def jsSetDedupGo (seen : List String) : List String → List String
  | [] => []
  | x :: xs => if x ∈ seen then jsSetDedupGo seen xs else x :: jsSetDedupGo (x :: seen) xs

/-- `Array.from(new Set(l))` starting from the empty set. -/
def jsSetDedup (l : List String) : List String := jsSetDedupGo [] l

/-- `imageCandidates(slug, person, years, imgRoster, imgYears, defaultImg)`:
the pushed candidates, filtered by JS truthiness (`filter(Boolean)` drops
empty strings) and de-duplicated through a `Set`. -/
def imageCandidates (slug : String) (person : Option Person) (years : List String)
    (imgRoster : String) (imgYears : Option String) (defaultImg : String) :
    List String :=
  jsSetDedup ((rawCandidates slug person years imgRoster imgYears defaultImg).filter (· ≠ ""))

/-- Specification-side de-duplication, following the spec's words: duplicates
are removed "preserving first-occurrence order (first occurrence wins)" —
keep each head and delete its later duplicates. -/
def dedupFirstOccurrence : List String → List String
  | [] => []
  | x :: xs => x :: dedupFirstOccurrence (xs.filter (fun y => y ≠ x))
termination_by l => l.length
decreasing_by
  simp only [List.length_cons]
  exact Nat.lt_succ_of_le (List.length_filter_le _ _)

lemma mem_jsSetDedupGo (l : List String) :
    ∀ (seen : List String) (x : String),
      x ∈ jsSetDedupGo seen l ↔ x ∈ l ∧ x ∉ seen := by
  induction l with
  | nil => intro seen x; simp [jsSetDedupGo]
  | cons a xs ih =>
    intro seen x
    by_cases ha : a ∈ seen
    · simp only [jsSetDedupGo, if_pos ha, ih, List.mem_cons]
      constructor
      · rintro ⟨hx, hs⟩; exact ⟨Or.inr hx, hs⟩
      · rintro ⟨hx | hx, hs⟩
        · exact absurd (hx ▸ ha) hs
        · exact ⟨hx, hs⟩
    · simp only [jsSetDedupGo, if_neg ha, List.mem_cons, ih, List.mem_cons, not_or]
      constructor
      · rintro (rfl | ⟨hx, hna, hs⟩)
        · exact ⟨Or.inl rfl, ha⟩
        · exact ⟨Or.inr hx, hs⟩
      · rintro ⟨rfl | hx, hs⟩
        · exact Or.inl rfl
        · by_cases hxa : x = a
          · exact Or.inl hxa
          · exact Or.inr ⟨hx, hxa, hs⟩

lemma nodup_jsSetDedupGo (l : List String) :
    ∀ seen : List String, (jsSetDedupGo seen l).Nodup := by
  induction l with
  | nil => intro seen; simp [jsSetDedupGo]
  | cons a xs ih =>
    intro seen
    by_cases ha : a ∈ seen
    · simpa [jsSetDedupGo, if_pos ha] using ih seen
    · rw [jsSetDedupGo, if_neg ha, List.nodup_cons]
      refine ⟨fun hmem => ?_, ih (a :: seen)⟩
      exact ((mem_jsSetDedupGo xs (a :: seen) a).mp hmem).2 (List.mem_cons_self a seen)

lemma dedupFirstOccurrence_cons (x : String) (xs : List String) :
    dedupFirstOccurrence (x :: xs) =
      x :: dedupFirstOccurrence (xs.filter (fun y => y ≠ x)) := by
  rw [dedupFirstOccurrence]

lemma jsSetDedupGo_eq_dedupFirstOccurrence (l : List String) :
    ∀ seen : List String,
      jsSetDedupGo seen l = dedupFirstOccurrence (l.filter (fun x => x ∉ seen)) := by
  induction l with
  | nil => intro seen; simp [jsSetDedupGo, dedupFirstOccurrence]
  | cons a xs ih =>
    intro seen
    by_cases ha : a ∈ seen
    · rw [jsSetDedupGo, if_pos ha, List.filter_cons]
      simp [ha, ih seen]
    · rw [jsSetDedupGo, if_neg ha, List.filter_cons,
        if_pos (show ((fun x => decide (x ∉ seen)) a = true) by simp [ha])]
      rw [dedupFirstOccurrence_cons]
      have hff : ((xs.filter (fun x => x ∉ seen)).filter (fun y => y ≠ a) :
            List String) =
          xs.filter (fun x => x ∉ a :: seen) := by
        rw [List.filter_filter]
        apply List.filter_congr
        intro x _
        by_cases h1 : x = a <;> by_cases h2 : x ∈ seen <;>
          simp [h1, h2, List.mem_cons]
      rw [hff, ← ih (a :: seen)]

/-- C3: with the default fallback path, `imageCandidates` returns a list with
no duplicate URLs that contains the fallback path, and its de-duplication is
exactly first-occurrence-order de-duplication of the generated candidates (so
when the fallback coincides with an earlier candidate, the earlier occurrence's
position stands). -/
theorem imageCandidates_nodup_fallback_firstOccurrence (slug : String)
    (person : Option Person) (years : List String) (imgRoster : String)
    (imgYears : Option String) :
    (imageCandidates slug person years imgRoster imgYears DEFAULT_IMG).Nodup ∧
    DEFAULT_IMG ∈ imageCandidates slug person years imgRoster imgYears DEFAULT_IMG ∧
    imageCandidates slug person years imgRoster imgYears DEFAULT_IMG =
      dedupFirstOccurrence
        ((rawCandidates slug person years imgRoster imgYears DEFAULT_IMG).filter (· ≠ "")) := by
  refine ⟨nodup_jsSetDedupGo _ [], ?_, ?_⟩
  · rw [imageCandidates, jsSetDedup, mem_jsSetDedupGo]
    refine ⟨List.mem_filter.mpr ⟨?_, by decide⟩, by simp⟩
    simp [rawCandidates]
  · rw [imageCandidates, jsSetDedup, jsSetDedupGo_eq_dedupFirstOccurrence]
    congr 1
    simp

/-- C8: when `years` is empty, the output of `imageCandidates` does not depend
on the year base path at all — no year-folder candidates are generated. -/
theorem imageCandidates_empty_years_ignores_yearsBasePath (slug : String)
    (person : Option Person) (imgRoster : String) (iy1 iy2 : Option String)
    (defaultImg : String) :
    imageCandidates slug person [] imgRoster iy1 defaultImg =
      imageCandidates slug person [] imgRoster iy2 defaultImg := by
  have h : ∀ iy : Option String, rawCandidates slug person [] imgRoster iy defaultImg =
      rawCandidates slug person [] imgRoster none defaultImg := by
    intro iy
    cases iy with
    | none => rfl
    | some s => simp [rawCandidates]
  rw [imageCandidates, imageCandidates, h iy1, h iy2]

/-- C9: every entry of `imageCandidates` is a truthy (non-empty) string; a
falsy `photo` field (empty string or absent) contributes no explicit-photo
candidate; and overriding `defaultImg` with the empty string leaves no
fallback entry in the output. -/
theorem imageCandidates_truthy_entries (slug : String) (person : Option Person)
    (years : List String) (imgRoster : String) (imgYears : Option String)
    (defaultImg : String) :
    (∀ u, u ∈ imageCandidates slug person years imgRoster imgYears defaultImg → u ≠ "") ∧
    imageCandidates slug (some ⟨some ""⟩) years imgRoster imgYears defaultImg =
      imageCandidates slug none years imgRoster imgYears defaultImg ∧
    imageCandidates slug (some ⟨none⟩) years imgRoster imgYears defaultImg =
      imageCandidates slug none years imgRoster imgYears defaultImg ∧
    "" ∉ imageCandidates slug person years imgRoster imgYears "" := by
  refine ⟨?_, by simp [imageCandidates, rawCandidates],
    by simp [imageCandidates, rawCandidates], ?_⟩
  · intro u hu
    rw [imageCandidates, jsSetDedup, mem_jsSetDedupGo] at hu
    have := (List.mem_filter.mp hu.1).2
    simpa using this
  · intro hu
    rw [imageCandidates, jsSetDedup, mem_jsSetDedupGo] at hu
    have := (List.mem_filter.mp hu.1).2
    simp at this

/-- C9 witness: the default path is a member of a concrete output and is
indeed non-empty. -/
theorem imageCandidates_truthy_entries_witness :
    ("/staff/images/cta-default.jpg" : String) ≠ "" := by
  exact (imageCandidates_truthy_entries "jane" none [] "/staff/images" none DEFAULT_IMG).1
    "/staff/images/cta-default.jpg" (by decide)

/-- JS `String.prototype.toLowerCase` (ASCII range), computed by structural
recursion on the character list so that concrete instances evaluate. -/
def jsToLower (s : String) : String := ⟨s.data.map Char.toLower⟩

/-- JS `String.prototype.trim`: strip leading and trailing whitespace. -/
def jsTrim (s : String) : String :=
  ⟨((s.data.dropWhile Char.isWhitespace).reverse.dropWhile Char.isWhitespace).reverse⟩

/-- One step of JS `String.prototype.split` against a single-character
delimiter class: `cur` is the (reversed) token being accumulated. -/
def splitCharsGo (p : Char → Bool) (cur : List Char) : List Char → List (List Char)
  | [] => [cur.reverse]
  | c :: cs => if p c then cur.reverse :: splitCharsGo p [] cs else splitCharsGo p (c :: cur) cs

/-- JS `String.prototype.split` on a character class, e.g. `/[,;|\n]/`:
adjacent delimiters yield empty tokens, and the empty string yields `[""]`. -/
def jsSplit (p : Char → Bool) (s : String) : List String :=
  (splitCharsGo p [] s.data).map (fun cs => ⟨cs⟩)

/-- JS `Array.prototype.join(sep)`. -/
def jsJoin (sep : String) : List String → String
  | [] => ""
  | [s] => s
  | s :: rest => s ++ sep ++ jsJoin sep rest

/-- The delimiter class `/[,;|\n]/` of `parseInterests`. -/
def isInterestDelim (c : Char) : Bool := c == ',' || c == ';' || c == '|' || c == '\n'

/-- The `value` argument of `parseInterests`: `nullish` stands for the falsy
non-string inputs (`null`/`undefined`), otherwise a string or an array. -/
inductive InterestValue where
  | nullish : InterestValue
  | str : String → InterestValue
  | arr : List String → InterestValue

/-- The `items` list of `parseInterests` before de-duplication: split a string
input on the delimiter class (or take array elements), trim each entry, drop
empties (`filter(Boolean)`). -/
def interestItems : InterestValue → List String
  | .nullish => []
  | .str s => ((jsSplit isInterestDelim s).map jsTrim).filter (· ≠ "")
  | .arr items => (items.map jsTrim).filter (· ≠ "")

/-- The case-insensitive de-duplication filter of `parseInterests`: `seen` is
the set of lower-cased keys already kept; an item is kept iff its key is new. -/
def dedupCIGo (seen : List String) : List String → List String
  | [] => []
  | x :: xs =>
    if jsToLower x ∈ seen then dedupCIGo seen xs
    else x :: dedupCIGo (jsToLower x :: seen) xs

/-- `parseInterests(value)` from the source: falsy input (null/undefined or the
empty string) yields `[]`; otherwise split/trim/drop-empties then de-duplicate
case-insensitively keeping first occurrences. -/
def parseInterests (value : InterestValue) : List String :=
  match value with
  | .nullish => []
  | .str s => if s = "" then [] else dedupCIGo [] (interestItems (.str s))
  | .arr items => dedupCIGo [] (interestItems (.arr items))

lemma dedupCIGo_mem_spec (l : List String) :
    ∀ (seen : List String) (x : String), x ∈ dedupCIGo seen l →
      jsToLower x ∉ seen ∧
      l.find? (fun y => jsToLower y == jsToLower x) = some x := by
  induction l with
  | nil => intro seen x hx; simp [dedupCIGo] at hx
  | cons a xs ih =>
    intro seen x hx
    by_cases ha : jsToLower a ∈ seen
    · rw [dedupCIGo, if_pos ha] at hx
      obtain ⟨hs, hf⟩ := ih seen x hx
      have hfa : (jsToLower a == jsToLower x) = false :=
        beq_eq_false_iff_ne.mpr fun heq => hs (heq ▸ ha)
      exact ⟨hs, by simp only [List.find?_cons, hfa]; exact hf⟩
    · rw [dedupCIGo, if_neg ha] at hx
      rcases List.mem_cons.mp hx with rfl | hx'
      · exact ⟨ha, List.find?_cons_of_pos _ (by simp)⟩
      · obtain ⟨hs, hf⟩ := ih (jsToLower a :: seen) x hx'
        rw [List.mem_cons, not_or] at hs
        have hfa : (jsToLower a == jsToLower x) = false :=
          beq_eq_false_iff_ne.mpr fun heq => hs.1 heq.symm
        exact ⟨hs.2, by simp only [List.find?_cons, hfa]; exact hf⟩

lemma dedupCIGo_map_nodup (l : List String) :
    ∀ seen : List String, ((dedupCIGo seen l).map jsToLower).Nodup := by
  induction l with
  | nil => intro seen; simp [dedupCIGo]
  | cons a xs ih =>
    intro seen
    by_cases ha : jsToLower a ∈ seen
    · rw [dedupCIGo, if_pos ha]; exact ih seen
    · rw [dedupCIGo, if_neg ha]
      simp only [List.map_cons, List.nodup_cons]
      refine ⟨fun hmem => ?_, ih (jsToLower a :: seen)⟩
      obtain ⟨y, hy, hyl⟩ := List.mem_map.mp hmem
      have := (dedupCIGo_mem_spec xs (jsToLower a :: seen) y hy).1
      exact this (by rw [hyl]; exact List.mem_cons_self _ _)

lemma dedupCIGo_sublist (l : List String) :
    ∀ seen : List String, List.Sublist (dedupCIGo seen l) l := by
  induction l with
  | nil => intro seen; simp [dedupCIGo]
  | cons a xs ih =>
    intro seen
    by_cases ha : jsToLower a ∈ seen
    · rw [dedupCIGo, if_pos ha]; exact (ih seen).cons a
    · rw [dedupCIGo, if_neg ha]; exact (ih (jsToLower a :: seen)).cons₂ a

/-- C5: `parseInterests` maps falsy input (null/undefined, empty string) to
`[]`; splits string input on `,` `;` `|` and newline, trims, drops empties;
handles array input elementwise; and de-duplicates case-insensitively keeping
the first-seen original casing and first-seen order. The last three conjuncts
state genuine de-duplication (lower-cased output has no duplicates), order and
casing preservation (the output is a sublist of the trimmed entry list, and
every output element is the first entry with its lower-cased key), and that no
empty entry survives. -/
theorem parseInterests_spec :
    parseInterests .nullish = [] ∧
    parseInterests (.str "") = [] ∧
    parseInterests (.str "AI, ai; Robotics") = ["AI", "Robotics"] ∧
    parseInterests (.arr ["x", "x", "y"]) = ["x", "y"] ∧
    (∀ value : InterestValue, ((parseInterests value).map jsToLower).Nodup) ∧
    (∀ value : InterestValue, List.Sublist (parseInterests value) (interestItems value)) ∧
    (∀ (value : InterestValue) (x : String), x ∈ parseInterests value →
      (interestItems value).find? (fun y => jsToLower y == jsToLower x) = some x) ∧
    (∀ (value : InterestValue) (x : String), x ∈ parseInterests value → x ≠ "") := by
  refine ⟨rfl, rfl, by decide, by decide, ?_, ?_, ?_, ?_⟩
  · intro value
    cases value with
    | nullish => simp [parseInterests]
    | str s =>
      by_cases hs : s = ""
      · simp [parseInterests, hs]
      · rw [parseInterests, if_neg hs]
        exact dedupCIGo_map_nodup _ []
    | arr items => exact dedupCIGo_map_nodup _ []
  · intro value
    cases value with
    | nullish => simp [parseInterests, interestItems]
    | str s =>
      by_cases hs : s = ""
      · rw [parseInterests, if_pos hs]
        exact List.nil_sublist _
      · rw [parseInterests, if_neg hs]
        exact dedupCIGo_sublist _ []
    | arr items => exact dedupCIGo_sublist _ []
  · intro value x hx
    cases value with
    | nullish => simp [parseInterests] at hx
    | str s =>
      by_cases hs : s = ""
      · rw [parseInterests, if_pos hs] at hx
        simp at hx
      · rw [parseInterests, if_neg hs] at hx
        exact (dedupCIGo_mem_spec _ [] x hx).2
    | arr items => exact (dedupCIGo_mem_spec _ [] x hx).2
  · intro value x hx
    cases value with
    | nullish => simp [parseInterests] at hx
    | str s =>
      by_cases hs : s = ""
      · rw [parseInterests, if_pos hs] at hx
        simp at hx
      · rw [parseInterests, if_neg hs] at hx
        have hmem := (dedupCIGo_sublist _ []).subset hx
        have := (List.mem_filter.mp hmem).2
        simpa using this
    | arr items =>
      have hmem := (dedupCIGo_sublist _ []).subset hx
      have := (List.mem_filter.mp hmem).2
      simpa using this

/-- C5 witness: the first-seen-casing conjunct instantiated on the array
example: the first entry whose lower-cased key is that of `"x"` is `"x"`. -/
theorem parseInterests_spec_witness :
    (interestItems (.arr ["x", "x", "y"])).find?
      (fun y => jsToLower y == jsToLower "x") = some "x" := by
  exact parseInterests_spec.2.2.2.2.2.2.1 (.arr ["x", "x", "y"]) "x" (by decide)

/-- The per-token transform of `formatNameFromSlug`: an empty token maps to
the empty string; otherwise the token is lower-cased and its first character
upper-cased (`charAt(0).toUpperCase() + slice(1)`). -/
def titleCaseWord (word : String) : String :=
  if word = "" then ""
  else
    match (jsToLower word).data with
    | [] => ""
    | c :: cs => ⟨Char.toUpper c :: cs⟩

/-- `formatNameFromSlug(str)` from the source: falsy (empty) input yields the
empty string; otherwise split on `-`, title-case each token, join with a
single space. -/
def formatNameFromSlug (str : String) : String :=
  if str = "" then ""
  else jsJoin " " ((jsSplit (· == '-') str).map titleCaseWord)

/-- C6: `formatNameFromSlug` maps `"jane-doe"` to `"Jane Doe"`, the empty
string to itself, and `"a--b"` to `"A  B"` — the empty inner token becomes an
empty word between two single-space joins. -/
theorem formatNameFromSlug_examples :
    formatNameFromSlug "jane-doe" = "Jane Doe" ∧
    formatNameFromSlug "" = "" ∧
    formatNameFromSlug "a--b" = "A  B" := by
  refine ⟨by decide, rfl, by decide⟩

/-- A parsed YAML value as a JS value, with JS truthiness: the falsy values
are `null`, `false`, `0` and the empty string; objects and arrays (even empty
ones) are truthy. -/
inductive JsValue where
  | nullv : JsValue
  | boolv : Bool → JsValue
  | numv : Int → JsValue
  | strv : String → JsValue
  | arrv : List JsValue → JsValue
  | mapping : List (String × JsValue) → JsValue

/-- JS truthiness of a `JsValue`. -/
def JsValue.truthy : JsValue → Bool
  | .nullv => false
  | .boolv b => b
  | .numv n => n != 0
  | .strv s => s != ""
  | .arrv _ => true
  | .mapping _ => true

/-- The transport outcome of one `fetchYAML` call: `await fetch` rejects, the
response arrives with `response.ok` false (the function then throws), the body
read `await response.text()` rejects, or the body text arrives. -/
inductive FetchOutcome where
  | fetchRejects : FetchOutcome
  | respNotOk : FetchOutcome
  | textRejects : FetchOutcome
  | okText : String → FetchOutcome

/-- The empty mapping `{}` that `fetchYAML` falls back to. -/
def emptyMapping : JsValue := .mapping []

/-- `fetchYAML(path)` from the source, with the transport outcome and the
`jsyaml.load` parser made explicit (`Except.error` models a thrown parse
exception). Every throw inside the `try` block lands in the `catch`, which
logs and returns `{}`; a successful parse is post-processed by `|| {}`, so a
falsy parse result also becomes the empty mapping. -/
def fetchYAML (outcome : FetchOutcome) (load : String → Except String JsValue) :
    JsValue :=
  match outcome with
  | .fetchRejects => emptyMapping
  | .respNotOk => emptyMapping
  | .textRejects => emptyMapping
  | .okText text =>
    match load text with
    | .error _ => emptyMapping
    | .ok v => if v.truthy then v else emptyMapping

/-- C7: `fetchYAML` never propagates a failure: a rejected fetch, a non-ok
response, a failed body read, and a parse error all resolve with the empty
mapping (and the embedding is a total function — it always resolves). -/
theorem fetchYAML_never_propagates_failure (load : String → Except String JsValue) :
    fetchYAML .fetchRejects load = emptyMapping ∧
    fetchYAML .respNotOk load = emptyMapping ∧
    fetchYAML .textRejects load = emptyMapping ∧
    (∀ (text e : String), load text = .error e →
      fetchYAML (.okText text) load = emptyMapping) := by
  refine ⟨rfl, rfl, rfl, ?_⟩
  intro text e h
  simp [fetchYAML, h]

/-- C7 witness: a concrete parser that throws yields the empty mapping. -/
theorem fetchYAML_never_propagates_failure_witness :
    fetchYAML (.okText "bad: [") (fun _ => .error "unexpected end") = emptyMapping := by
  exact (fetchYAML_never_propagates_failure (fun _ => .error "unexpected end")).2.2.2
    "bad: [" "unexpected end" rfl

/-- C10: when the fetch succeeds but the YAML text decodes to a falsy value,
`fetchYAML` resolves with the empty mapping — the same value as a failed
fetch, so the two cases are indistinguishable in the result. -/
theorem fetchYAML_falsy_yaml_empty_mapping (load : String → Except String JsValue)
    (text : String) (v : JsValue) (h1 : load text = .ok v)
    (h2 : v.truthy = false) :
    fetchYAML (.okText text) load = emptyMapping ∧
    fetchYAML (.okText text) load = fetchYAML .fetchRejects load := by
  constructor <;> simp [fetchYAML, h1, h2]

/-- C10 witness: an empty document parsing to `null` yields the empty mapping,
equal to the failed-fetch result. -/
theorem fetchYAML_falsy_yaml_empty_mapping_witness :
    fetchYAML (.okText "") (fun _ => .ok .nullv) = emptyMapping ∧
    fetchYAML (.okText "") (fun _ => .ok .nullv) =
      fetchYAML .fetchRejects (fun _ => .ok .nullv) := by
  exact fetchYAML_falsy_yaml_empty_mapping (fun _ => .ok JsValue.nullv) ""
    JsValue.nullv rfl rfl
